import Mathlib

/-!
Verification development for the US-equity / UK-employee CGT reconciliation
engine (files `calculate_vest_price.py` and `etrade_data_processor.py`).

Shallow embedding conventions:

* A calendar date is a natural number: the count of days since 2024-01-01,
  which was a Monday.  Hence `weekday d = d % 7`, with Saturday = 5 and
  Sunday = 6, exactly as in Python's `datetime.weekday()`.  All the date
  strings in the source are produced and consumed in the single normalized
  format `YYYY-MM-DD` (`strftime('%Y-%m-%d')` at every boundary), so the
  string form of a well-formed date is in bijection with its day number and
  the embedding identifies the two.  A string that does *not* parse as
  `YYYY-MM-DD` is kept as raw text (`DStr.malformed`), which is what trips
  the `except` branch of `get_vest_price`.
* Python floats are embedded as rationals `ℚ`; `round(x, 6)` is embedded as
  round-half-to-even at six decimal places (`round6`).
* Python dicts built from the price/rate CSVs are embedded as association
  lists with `List.lookup` (`dict.get`); the holiday set as a list of dates
  with membership test.
* The `while` loops (`_get_next_business_day`, the bucketing loop of
  `consolidate_similar_prices`) are embedded as structurally recursive
  functions driven by an explicit fuel argument that over-approximates the
  number of iterations; the accompanying theorems show the fuel is
  sufficient, i.e. that the loops terminate.
-/

namespace Etrade

/- Calendar dates are plain naturals: the count of days since 2024-01-01
(a Monday); `Nat` is used directly so that arithmetic automation sees
through the type. -/

/-- `VestPriceCalculator._is_business_day`: `False` on Saturday/Sunday
(`weekday() >= 5`), otherwise true iff the date is not in the holiday set. -/
def is_business_day (holidays : List Nat) (d : Nat) : Bool :=
  if d % 7 ≥ 5 then false else decide (d ∉ holidays)

/-- The body of `VestPriceCalculator._get_next_business_day`'s `while` loop,
with fuel: starting from `d`, step forward one day at a time until a business
day is hit (`fuel` bounds the number of steps). -/
def nbd_fuel (holidays : List Nat) : Nat → Nat → Nat
  | 0, d => d
  | n + 1, d => if is_business_day holidays d then d else nbd_fuel holidays n (d + 1)

/-- Enough fuel for the scan: steps up to the first Monday strictly past both
`d` and every holiday (weekends recur every 7 days, holidays are finitely
many, so such a Monday is a business day). -/
def fuelBound (holidays : List Nat) (d : Nat) : Nat :=
  7 * ((holidays.foldr max d) / 7 + 1) - d

/-- `VestPriceCalculator._get_next_business_day`: the smallest business day
`≥ d`, computed by the one-day-at-a-time forward scan. -/
def next_business_day (holidays : List Nat) (d : Nat) : Nat :=
  nbd_fuel holidays (fuelBound holidays d) d

/-- The literal `while not business: day += 1` scan as a step-counting
process: `none` means the scan has not reached a business day within `n`
steps.  Used to state that the loop terminates. -/
def bday_scan (holidays : List Nat) : Nat → Nat → Option Nat
  | 0, d => if is_business_day holidays d then some d else none
  | n + 1, d => if is_business_day holidays d then some d else bday_scan holidays n (d + 1)

/-- A date string: either a well-formed `YYYY-MM-DD` date (identified with
its day number) or a malformed string kept as raw text (on which
`datetime.strptime` raises). -/
inductive DStr where
  | valid (d : Nat)
  | malformed (s : String)
deriving DecidableEq

/-- The day number of a date string, if well formed (`NaT`/garbage ↦ none). -/
def DStr.toDay : DStr → Option Nat
  | DStr.valid d => some d
  | DStr.malformed _ => none

/-- Round-half-to-even to an integer (Python's `round` tie-breaking);
off ties it agrees with ordinary rounding to nearest. -/
def rhe (t : ℚ) : ℤ :=
  if Int.fract t = 1 / 2 then (if 2 ∣ ⌊t⌋ then ⌊t⌋ else ⌊t⌋ + 1) else round t

/-- Python's `round(x, 6)`: round-half-to-even at six decimal places. -/
def round6 (x : ℚ) : ℚ := ((rhe (x * 1000000) : ℤ) : ℚ) / 1000000

/-- State of a `VestPriceCalculator`: the stock-price index, the FX-rate
index (both keyed by date, as the loaded dicts are) and the holiday set. -/
structure VPC where
  stock_prices : List (Nat × ℚ)
  forex_rates : List (Nat × ℚ)
  holidays : List Nat

/-- `VestPriceCalculator.get_vest_price`.  Returns
`(usd_price, gbp_usd_rate, gbp_price, actual_date)`.

* malformed vest date: `strptime` raises, the catch-all `except` returns
  `(None, None, None, vest_date)` with the input string unchanged;
* no stock price at the resolved business day: `(None, None, None, actual)`;
* no FX rate there: `(usd, None, None, actual)`;
* rate present but zero: the division raises `ZeroDivisionError`, caught by
  the same `except` branch, so `(None, None, None, vest_date)`;
* otherwise all four fields, the GBP price being the exact quotient
  (the source performs no rounding here). -/
def get_vest_price (c : VPC) : DStr → Option ℚ × Option ℚ × Option ℚ × DStr
  | DStr.malformed s => (none, none, none, DStr.malformed s)
  | DStr.valid d =>
    let actual := next_business_day c.holidays d
    match c.stock_prices.lookup actual with
    | none => (none, none, none, DStr.valid actual)
    | some usd =>
      match c.forex_rates.lookup actual with
      | none => (some usd, none, none, DStr.valid actual)
      | some r =>
        if r = 0 then (none, none, none, DStr.valid d)
        else (some usd, some r, some (usd / r), DStr.valid actual)

/-- A transaction record: one row of the `all_records` / consolidated
DataFrames of `ETradeDataProcessor`.  `none` in an `Option` field embeds a
pandas `NaN`/`NaT` (absent value) in that column. -/
structure Rec where
  recordType : String
  date : Option Nat
  qty : ℚ
  price : Option ℚ
  priceGBP : Option ℚ
  fx : Option ℚ
  orderType : String
  secType : String
  grant : String
deriving DecidableEq

/-- One row of `vests_with_fmv` before the pricing loop: a vesting event
(grant, benefits `Date`, `Qty. or Amount`) together with the optional
`Vest Date FMV` obtained from the left-join against the sales data
(`none` embeds an unmatched join or an empty FMV cell). -/
structure VestRow where
  grant : String
  date : DStr
  qty : ℚ
  fmv : Option ℚ
deriving DecidableEq

/-- One row of the gains/sales DataFrame, restricted to the columns the
sell-side of `consolidate_transactions` reads. -/
structure SaleRow where
  grant : String
  dateSold : DStr
  qty : ℚ
  proceeds : Option ℚ
  orderType : String
  secType : String
deriving DecidableEq

/-- A `vests_with_fmv` row after the pricing loop of
`consolidate_transactions` (lines 304-326): the columns
`Vest Date FMV`, `GBP_Price`, `USD_GBP_Rate`, `Actual_Vest_Date` as left by
the loop body for that row. -/
structure VRow where
  grant : String
  date : DStr
  qty : ℚ
  fmv : Option ℚ
  gbp : Option ℚ
  rate : Option ℚ
  actual : Option Nat
deriving DecidableEq

/-- The body of the per-vest pricing loop (lines 304-326).

* FMV missing: call `get_vest_price`; if it found a USD price, store USD
  price as FMV, GBP price, rate and actual date; otherwise leave the row
  untouched (it is counted in `missing_fmv`).
* FMV known: call `get_vest_price`; if it found an FX rate, store
  GBP price `= FMV / rate`, the rate and the actual date; otherwise the
  row keeps `GBP_Price`, `USD_GBP_Rate` *and* `Actual_Vest_Date` absent
  (the loop assigns them only inside `if fx_rate is not None`). -/
def processVestRow (c : VPC) (v : VestRow) : VRow :=
  match v.fmv with
  | none =>
    match get_vest_price c v.date with
    | (some usd, fx, gbp, actual) =>
      ⟨v.grant, v.date, v.qty, some usd, gbp, fx, actual.toDay⟩
    | (none, _, _, _) => ⟨v.grant, v.date, v.qty, none, none, none, none⟩
  | some f =>
    match get_vest_price c v.date with
    | (_, some rate, _, actual) =>
      ⟨v.grant, v.date, v.qty, some f, some (f / rate), some rate, actual.toDay⟩
    | (_, none, _, _) => ⟨v.grant, v.date, v.qty, some f, none, none, none⟩

/-- The `buy_records` construction (lines 344-355): every processed vest row
becomes a Buy record whose `Date` column is `Actual_Vest_Date` (never the
nominal date). -/
def vestToBuy (r : VRow) : Rec :=
  { recordType := "Buy", date := r.actual, qty := r.qty, price := r.fmv,
    priceGBP := r.gbp, fx := r.rate, orderType := "Vest",
    secType := "Restricted Stock Unit", grant := r.grant }

/-- The `sell_records` construction plus the GBP-conversion loop (lines
358-377): the record keeps the sale's own `Date Sold` (no business-day
shift); if the resolver finds an FX rate for that date, GBP price
`= Proceeds Per Share / rate` and the rate are stored, else both columns
stay absent. -/
def saleToSell (c : VPC) (s : SaleRow) : Rec :=
  match (get_vest_price c s.dateSold).2.1 with
  | some r =>
    { recordType := "Sell", date := s.dateSold.toDay, qty := s.qty,
      price := s.proceeds, priceGBP := s.proceeds.map (fun p => p / r),
      fx := some r, orderType := s.orderType, secType := s.secType,
      grant := s.grant }
  | none =>
    { recordType := "Sell", date := s.dateSold.toDay, qty := s.qty,
      price := s.proceeds, priceGBP := none, fx := none,
      orderType := s.orderType, secType := s.secType, grant := s.grant }

/-- Total increment of `validation_stats['missing_fmv']` over the pricing
loop: the number of vest rows with no known FMV for which the resolver found
no USD price (line 319). -/
def missingFMVCount (c : VPC) (vests : List VestRow) : Nat :=
  vests.countP (fun v => decide (v.fmv = none ∧ (get_vest_price c v.date).1 = none))

/-- Total increment of `validation_stats['calculated_prices']` (line 313). -/
def calculatedPricesCount (c : VPC) (vests : List VestRow) : Nat :=
  vests.countP (fun v => decide (v.fmv = none ∧ (get_vest_price c v.date).1 ≠ none))

/-- The columns of the gains/losses frame (`usecols=self.gains_columns`,
lines 25-37).  Note there is *no* plain `Date` column — only
`Date Acquired`, `Date Sold` and `Vest Date`. -/
def gains_columns : List String :=
  ["Record Type", "Date Acquired", "Date Sold", "Qty.", "Proceeds Per Share",
   "Vest Date", "Vest Date FMV", "Grant Date FMV", "Grant Number",
   "Order Type", "Type"]

/-- `_validate_numeric_values` on the gains frame (lines 65-80): filters the
negative-quantity rows; if any exist, the counter is incremented by their
number and the warning line then selects
`neg_qty[['Date', 'Grant Number', 'Qty.']]` — but the gains frame has no
`Date` column, so this raises `KeyError` (the `Except.error`), *after* the
counter was bumped.  With no negative rows nothing is selected (the gains
sheet also has no `Price Per Share` column, so the zero-price branch is
skipped) and validation succeeds. -/
def validate_numeric_values (df : List SaleRow) : Nat × Except String Unit :=
  let neg_qty := df.filter (fun r => decide (r.qty < 0))
  if neg_qty.isEmpty then (0, Except.ok ())
  else (neg_qty.length,
    if ["Date", "Grant Number", "Qty."].all (fun col => gains_columns.contains col)
    then Except.ok ()
    else Except.error "KeyError")

/-- The validation part of `process_gains_losses` (lines 104-139): on
success the DataFrame is returned unchanged together with the counter
increment; the `except` clause logs and *re-raises* any error from
`_validate_numeric_values`, so a raised `KeyError` aborts the run. -/
def process_gains_losses (df : List SaleRow) : Except String (List SaleRow × Nat) :=
  match validate_numeric_values df with
  | (n, Except.ok _) => Except.ok (df, n)
  | (_, Except.error e) => Except.error e

/-- The groupby key of `consolidate_similar_prices`:
`(Date, Record Type, Order Type, Type)`.  A row whose `Date` is absent
(`NaT`) has no key: pandas `groupby` drops it (`dropna=True` default), so it
never reaches any group. -/
abbrev GKey := Nat × String × String × String

/-- The groupby key of a record, if its date is present. -/
def gkey (r : Rec) : Option GKey :=
  match r.date with
  | none => none
  | some d => some (d, r.recordType, r.orderType, r.secType)

/-- The similar-price mask (lines 216-219): a row joins the pivot's bucket
iff its price lies in `[ref*(1-tol), ref*(1+tol)]`.  A `NaN` price on either
side makes the comparison false, as in pandas. -/
def similar (tol : ℚ) (ref : Option ℚ) (r : Rec) : Bool :=
  match ref, r.price with
  | some p, some q => decide (p * (1 - tol) ≤ q ∧ q ≤ p * (1 + tol))
  | _, _ => false

/-- `_calculate_weighted_average` (lines 97-102) over (price, qty) pairs:
`Σ price·qty / Σ qty`, defined as `0` when the total quantity is zero. -/
def wavg (l : List (ℚ × ℚ)) : ℚ :=
  if (l.map Prod.snd).sum = 0 then 0
  else (l.map (fun p => p.1 * p.2)).sum / (l.map Prod.snd).sum

/-- The largest multiplicity occurring in the list. -/
def maxCount (l : List ℚ) : Nat := (l.map (fun x => l.count x)).foldr max 0

/-- `Series.mode().iloc[0]` (line 236): pandas `mode` drops `NaN`s, returns
*all* maximally frequent values sorted ascending, and `.iloc[0]` picks the
first, i.e. the *smallest* maximally frequent value.  `none` embeds the
`IndexError` raised on an empty mode (never reached from this pipeline). -/
def modeQ (l : List ℚ) : Option ℚ :=
  (l.filter (fun x => l.count x = maxCount l)).min?

/-- Hyphen, the grant-number separator. -/
def hyphen : String := "-"

/-- Sorted insertion for grant tokens (lexicographic order). -/
def insertStr (s : String) : List String → List String
  | [] => [s]
  | x :: xs => if x ≤ s then x :: insertStr s xs else s :: x :: xs

/-- Lexicographic insertion sort (Python's `sorted` on strings). -/
def sortStrs (l : List String) : List String := l.foldr insertStr []

/-- Combined grant numbers of a merged bucket (lines 244-248): split each
member's grant field on `-`, deduplicate, sort lexicographically, rejoin. -/
def combineGrants (gs : List String) : String :=
  String.intercalate hyphen (sortStrs (((gs.map (fun g => g.splitOn hyphen)).flatten).dedup))

/-- The consolidated record built from a bucket (lines 225-261): quantity is
the sum, USD price the quantity-weighted average rounded to 6 places; if any
member carries a GBP price, the GBP price is the weighted average over the
GBP-carrying members (same weights) rounded to 6 places, and the exchange
rate is the pandas mode of the members' rates; otherwise both stay absent. -/
def mergeBucket (k : GKey) (bucket : List Rec) : Rec :=
  let avgU := round6 (wavg (bucket.map (fun r => (r.price.getD 0, r.qty))))
  let q := (bucket.map (fun r => r.qty)).sum
  if bucket.any (fun r => r.priceGBP.isSome) then
    { recordType := k.2.1, date := some k.1, qty := q, price := some avgU,
      priceGBP := some (round6 (wavg ((bucket.filter (fun r => r.priceGBP.isSome)).map
        (fun r => (r.priceGBP.getD 0, r.qty))))),
      fx := modeQ (bucket.filterMap (fun r => r.fx)),
      orderType := k.2.2.1, secType := k.2.2.2,
      grant := combineGrants (bucket.map (fun r => r.grant)) }
  else
    { recordType := k.2.1, date := some k.1, qty := q, price := some avgU,
      priceGBP := none, fx := none,
      orderType := k.2.2.1, secType := k.2.2.2,
      grant := combineGrants (bucket.map (fun r => r.grant)) }

/-- The greedy bucketing `while` loop over one non-Buy group (lines
212-266), fuel-driven: take the first remaining row as pivot, collect the
rows within tolerance of its price; if more than one, emit the merged record
and drop them all, else emit the first row unchanged and drop just it.  Each
iteration removes at least one row, so fuel = initial length suffices. -/
def greedyF (tol : ℚ) (k : GKey) : Nat → List Rec → List Rec
  | _, [] => []
  | 0, _ :: _ => []
  | n + 1, r0 :: rest =>
    let bucket := (r0 :: rest).filter (similar tol r0.price)
    if 1 < bucket.length then
      mergeBucket k bucket ::
        greedyF tol k n ((r0 :: rest).filter (fun r => ! similar tol r0.price r))
    else
      r0 :: greedyF tol k n rest

/-- The bucketing loop run to completion on a group. -/
def greedy (tol : ℚ) (k : GKey) (g : List Rec) : List Rec :=
  greedyF tol k g.length g

/-- `consolidate_similar_prices` (lines 188-269): group the rows by
`(Date, Record Type, Order Type, Type)` — rows with an absent date have no
key and are dropped by the groupby —, pass Buy groups through unchanged and
run the greedy bucketing loop on every other group.  (pandas enumerates the
group keys in sorted order; here they come in order of first occurrence —
the final ledger is re-sorted by date afterwards, and no stated property
depends on the interleaving of distinct groups.) -/
def consolidate_similar_prices (tol : ℚ) (df : List Rec) : List Rec :=
  ((df.filterMap gkey).dedup).flatMap (fun k =>
    let g := df.filter (fun r => gkey r = some k)
    if k.2.1 = "Buy" then g else greedy tol k g)

/-- Sorted insertion by date (absent dates compare as day 0). -/
def insertByDate (r : Rec) : List Rec → List Rec
  | [] => [r]
  | x :: xs => if x.date.getD 0 ≤ r.date.getD 0 then x :: insertByDate r xs
               else r :: x :: xs

/-- `consolidated.sort_values('Date')` (line 385): sort the consolidated
records ascending by date (insertion sort; the claims under study are
insensitive to the ordering of equal-date records). -/
def sortByDate (l : List Rec) : List Rec := l.foldr insertByDate []

/-- Whether a vest row enters an assigning branch of the pricing loop: the
`.loc` writes at lines 309-312 (FMV missing, USD price found) and 324-326
(FMV known, FX rate found) are the only statements that ever *create* the
columns `Actual_Vest_Date`, `GBP_Price` and `USD_GBP_Rate`. -/
def vestAssigns (c : VPC) (v : VestRow) : Bool :=
  match v.fmv with
  | none => (get_vest_price c v.date).1.isSome
  | some _ => (get_vest_price c v.date).2.1.isSome

/-- `consolidate_transactions` (lines 271-403): price the vests, build Buy
records (dated by `Actual_Vest_Date`), build Sell records (dated by
`Date Sold`), concatenate, consolidate similar prices with the default 1%
tolerance, and sort by date.

If *no* vest row ever takes an assigning branch (in particular when `vests`
is empty), the columns `Actual_Vest_Date`/`GBP_Price`/`USD_GBP_Rate` are
never created and line 329 (`vests_with_fmv['Actual_Vest_Date']`) raises
`KeyError` before any Buy row or ledger exists: the run aborts
(`Except.error`).  Otherwise the columns exist (absent cells are `NaN`) and
the pipeline runs to completion. -/
def consolidate_transactions (c : VPC) (sales : List SaleRow)
    (vests : List VestRow) : Except String (List Rec) :=
  let buys := vests.map (fun v => vestToBuy (processVestRow c v))
  let sells := sales.map (saleToSell c)
  if vests.any (vestAssigns c) then
    Except.ok (sortByDate (consolidate_similar_prices (1 / 100) (buys ++ sells)))
  else
    Except.error "KeyError"

/-- The FX rate the engine associates with a ledger date: the rate
component of `get_vest_price` at that date.  Every record the normalizer
dates with `dt` obtains its `Exchange Rate` from exactly this value (sells
look it up for their own sale date; buys are dated by the resolved day,
where the resolver found the same stock price and rate it stored). -/
def rateOf (c : VPC) (dt : Nat) : Option ℚ := (get_vest_price c (DStr.valid dt)).2.1

/-- Pricing coherence of a normalizer-produced record: its stored rate is
the engine rate of its date; with that rate present, a present USD price
forces GBP price = USD / rate exactly; with it absent, no GBP price is
stored.  (`consolidate_transactions` only ever emits records satisfying
this.) -/
def RecInv (c : VPC) (r : Rec) : Prop :=
  ∀ dt, r.date = some dt →
    r.fx = rateOf c dt ∧
    (∀ ρ u, rateOf c dt = some ρ → r.price = some u → r.priceGBP = some (u / ρ)) ∧
    (rateOf c dt = none → r.priceGBP = none)

-- ### Concrete instances used by witnesses and counterexamples ###

/-- Calculator with a stock price of 10 USD and an FX rate of 3 on day 16
(2024-01-17, a Wednesday), no holidays. -/
def c4c : VPC := ⟨[(16, 10)], [(16, 3)], []⟩

/-- Calculator whose FX index carries a zero rate on day 16. -/
def c10z : VPC := ⟨[(16, 10)], [(16, 0)], []⟩

/-- A sale of -3 shares (a negative quantity, as short-sale rows have). -/
def s9neg : SaleRow := ⟨"G", DStr.valid 2, -3, some 5, "ot", "st"⟩

/-- A sale of 3 shares (all quantities nonnegative: validation succeeds). -/
def s9pos : SaleRow := ⟨"G", DStr.valid 2, 3, some 5, "ot", "st"⟩

/-- Calculator with a stock price and rate on business day 2 but no stock
price on business day 3. -/
def cw1 : VPC := ⟨[(2, 5)], [(2, 2)], []⟩

/-- A vest with no known FMV on business day 3, where `cw1` has no stock
price: it is counted as `missing_fmv`. -/
def vM : VestRow := ⟨"G2", DStr.valid 3, 7, none⟩

/-- A missing-FMV vest on business day 15, where `c2c` has a stock price:
it is priced in USD (no FX rate exists), creating the date column. -/
def v2b : VestRow := ⟨"G4", DStr.valid 15, 2, none⟩

/-- A known-FMV vest (FMV 2) on day 2, priced against `c3c`'s rate 1/8. -/
def v3 : VestRow := ⟨"GV", DStr.valid 2, 1, some 2⟩

/-- A known-FMV vest (FMV 6) on day 16, priced against `c4c`'s rate 3. -/
def v3w : VestRow := ⟨"GW", DStr.valid 16, 1, some 6⟩

/-- A Sell group key on day 2. -/
def k0 : GKey := (2, "Sell", "ot", "st")

/-- Sell record, day 2, qty 1, price 10, GBP present, rate 2. -/
def rA : Rec := ⟨"Sell", some 2, 1, some 10, some 5, some 2, "ot", "st", "G1"⟩

/-- Sell record, day 2, qty 2, price 10.05 (within 1% of 10), GBP present,
rate 1 — its rate ties with `rA`'s in frequency. -/
def rB : Rec := ⟨"Sell", some 2, 2, some (1005 / 100), some 5, some 1, "ot", "st", "G2"⟩

/-- Calculator for the C2 failing input: holiday on day 14 (2024-01-15,
MLK), a stock price on day 15 (2024-01-16) but *no* FX rate there. -/
def c2c : VPC := ⟨[(15, 10)], [], [14]⟩

/-- A vest with a known FMV of 12 on nominal date day 12 (Saturday
2024-01-13), resolving to business day 15 (2024-01-16). -/
def v2 : VestRow := ⟨"G1", DStr.valid 12, 5, some 12⟩

/-- Calculator for the C1 witness: no stock price anywhere. -/
def c1c : VPC := ⟨[], [(2, 2)], []⟩

/-- A vest with no known FMV on business day 2 (2024-01-03). -/
def v1 : VestRow := ⟨"G2", DStr.valid 2, 7, none⟩

/-- A second vest, with known FMV and an available rate, which survives to
the output next to the dropped `v1`. -/
def v1b : VestRow := ⟨"G3", DStr.valid 2, 4, some 8⟩

/-- Calculator with an FX rate of 1/8 (< 1) on business day 2, where
rounding error on the merged record exceeds the 1e-6 tolerance. -/
def c3c : VPC := ⟨[(2, 1)], [(2, 1 / 8)], []⟩

/-- Sale of 1 share at 10.0000002 USD on day 2. -/
def s31 : SaleRow := ⟨"G1", DStr.valid 2, 1, some (100000002 / 10000000), "ot", "st"⟩

/-- Sale of 1 share at 10.0000004 USD on day 2 (within 1% of `s31`). -/
def s32 : SaleRow := ⟨"G2", DStr.valid 2, 1, some (100000004 / 10000000), "ot", "st"⟩

/-- Sale of 1 share at 12 USD on day 16, against the rate-3 index `c4c`. -/
def s3w : SaleRow := ⟨"G", DStr.valid 16, 1, some 12, "ot", "st"⟩

-- ### Lemmas and theorems ###

/-- Everything in a list is bounded by `foldr max d`. -/
theorem le_foldr_max {l : List Nat} {x : Nat} (d : Nat) (hx : x ∈ l) :
    x ≤ l.foldr max d := by
  induction l with
  | nil => cases hx
  | cons a t ih =>
    rcases List.mem_cons.mp hx with rfl | hx
    · exact le_max_left _ _
    · exact le_trans (ih hx) (le_max_right _ _)

/-- The seed is bounded by `foldr max d`. -/
theorem seed_le_foldr_max (l : List Nat) (d : Nat) : d ≤ l.foldr max d := by
  induction l with
  | nil => exact le_refl d
  | cons a t ih => exact le_trans ih (le_max_right _ _)

/-- The Monday the fuel bound aims at is a business day reached after
exactly `fuelBound` forward steps. -/
theorem exists_business_in_fuel (holidays : List Nat) (d : Nat) :
    is_business_day holidays (d + fuelBound holidays d) = true := by
  have hdF : d ≤ holidays.foldr max d := seed_le_foldr_max holidays d
  have hfb : d + fuelBound holidays d = 7 * ((holidays.foldr max d) / 7 + 1) := by
    unfold fuelBound
    omega
  rw [hfb]
  unfold is_business_day
  rw [if_neg (by omega)]
  simp only [decide_eq_true_eq]
  intro hmem
  have hle := le_foldr_max d hmem
  omega

/-- Fueled-scan correctness: with enough fuel to reach some business day,
the scan stops at a business day, at or after the start, and every day at or
after the start and strictly before the stopping point is a non-business
day. -/
theorem nbd_fuel_spec (holidays : List Nat) :
    ∀ n d, (∃ k, k ≤ n ∧ is_business_day holidays (d + k) = true) →
      is_business_day holidays (nbd_fuel holidays n d) = true ∧
        d ≤ nbd_fuel holidays n d ∧
        ∀ e, d ≤ e → e < nbd_fuel holidays n d → is_business_day holidays e = false := by
  intro n
  induction n with
  | zero =>
    rintro d ⟨k, hk, hb⟩
    have hk0 : k = 0 := by omega
    subst hk0
    simp only [nbd_fuel]
    exact ⟨by simpa using hb, le_refl d, fun e h1 h2 => absurd h2 (by omega)⟩
  | succ n ih =>
    rintro d ⟨k, hk, hb⟩
    by_cases hd : is_business_day holidays d = true
    · simp only [nbd_fuel, if_pos hd]
      exact ⟨hd, le_refl d, fun e h1 h2 => absurd h2 (by omega)⟩
    · simp only [nbd_fuel, if_neg hd]
      have hk0 : k ≠ 0 := by
        rintro rfl
        exact hd (by simpa using hb)
      obtain ⟨j, rfl⟩ : ∃ j, k = j + 1 := ⟨k - 1, by omega⟩
      have hrec := ih (d + 1) ⟨j, by omega, by
        have harr : d + 1 + j = d + (j + 1) := by omega
        rw [harr]; exact hb⟩
      refine ⟨hrec.1, by omega, ?_⟩
      intro e h1 h2
      rcases Nat.eq_or_lt_of_le h1 with rfl | h1
      · exact Bool.eq_false_iff.mpr hd
      · exact hrec.2.2 e (by omega) h2

/-- `next_business_day` lands on a business day. -/
theorem nbd_is_business (holidays : List Nat) (d : Nat) :
    is_business_day holidays (next_business_day holidays d) = true := by
  have h := exists_business_in_fuel holidays d
  exact (nbd_fuel_spec holidays (fuelBound holidays d) d
    ⟨fuelBound holidays d, le_refl _, h⟩).1

/-- `next_business_day` does not step backwards. -/
theorem nbd_ge (holidays : List Nat) (d : Nat) : d ≤ next_business_day holidays d := by
  have h := exists_business_in_fuel holidays d
  exact (nbd_fuel_spec holidays (fuelBound holidays d) d
    ⟨fuelBound holidays d, le_refl _, h⟩).2.1

/-- `next_business_day` is minimal among business days `≥ d`. -/
theorem nbd_min (holidays : List Nat) (d e : Nat) (h1 : d ≤ e)
    (h2 : is_business_day holidays e = true) : next_business_day holidays d ≤ e := by
  have h := exists_business_in_fuel holidays d
  have hs := nbd_fuel_spec holidays (fuelBound holidays d) d
    ⟨fuelBound holidays d, le_refl _, h⟩
  rw [show nbd_fuel holidays (fuelBound holidays d) d = next_business_day holidays d
    from rfl] at hs
  by_contra hlt
  have hfalse : is_business_day holidays e = false := hs.2.2 e h1 (by omega)
  rw [h2] at hfalse
  cases hfalse

/-- On a business day the scan does not move. -/
theorem nbd_id (holidays : List Nat) (d : Nat)
    (h : is_business_day holidays d = true) : next_business_day holidays d = d :=
  le_antisymm (nbd_min holidays d d (le_refl d) h) (nbd_ge holidays d)

/-- The resolved day resolves to itself. -/
theorem nbd_idem (holidays : List Nat) (d : Nat) :
    next_business_day holidays (next_business_day holidays d) =
      next_business_day holidays d :=
  nbd_id holidays _ (nbd_is_business holidays d)

/-- The step-counting scan agrees with the fueled computation whenever the
fuel reaches a business day. -/
theorem bday_scan_eq (holidays : List Nat) :
    ∀ n d, (∃ k, k ≤ n ∧ is_business_day holidays (d + k) = true) →
      bday_scan holidays n d = some (nbd_fuel holidays n d) := by
  intro n
  induction n with
  | zero =>
    rintro d ⟨k, hk, hb⟩
    have hk0 : k = 0 := by omega
    subst hk0
    simp only [bday_scan, nbd_fuel, if_pos (by simpa using hb)]
  | succ n ih =>
    rintro d ⟨k, hk, hb⟩
    by_cases hd : is_business_day holidays d = true
    · simp only [bday_scan, nbd_fuel, if_pos hd]
    · simp only [bday_scan, nbd_fuel, if_neg hd]
      have hk0 : k ≠ 0 := by
        rintro rfl
        exact hd (by simpa using hb)
      obtain ⟨j, rfl⟩ : ∃ j, k = j + 1 := ⟨k - 1, by omega⟩
      exact ih (d + 1) ⟨j, by omega, by
        have harr : d + 1 + j = d + (j + 1) := by omega
        rw [harr]; exact hb⟩

/-- C7: `is_business_day` is false exactly on Saturdays, Sundays and
holidays (weekends regardless of holiday membership), and
`next_business_day d` is the least business day `≥ d`; in particular it is
`d` itself when `d` is already a business day. -/
theorem c7_business_day_contract (holidays : List Nat) (d e : Nat) :
    (is_business_day holidays d = false ↔ (d % 7 ≥ 5 ∨ d ∈ holidays)) ∧
    d ≤ next_business_day holidays d ∧
    is_business_day holidays (next_business_day holidays d) = true ∧
    (d ≤ e → is_business_day holidays e = true → next_business_day holidays d ≤ e) ∧
    (is_business_day holidays d = true → next_business_day holidays d = d) := by
  refine ⟨?_, nbd_ge holidays d, nbd_is_business holidays d,
    nbd_min holidays d e, nbd_id holidays d⟩
  unfold is_business_day
  by_cases hw : d % 7 ≥ 5
  · simp only [if_pos hw]
    exact ⟨fun _ => Or.inl hw, fun _ => trivial⟩
  · simp only [if_neg hw, decide_eq_false_iff_not, not_not]
    constructor
    · exact fun h => Or.inr h
    · rintro (h | h)
      · exact absurd h hw
      · exact h

/-- C7 witness: with the MLK-style holiday set `{day 14}` (2024-01-15) and
the Saturday day 12 (2024-01-13), the resolver returns a business day,
which is at most the business day 15 (2024-01-16), and a business day
resolves to itself. -/
theorem c7_business_day_contract_witness :
    is_business_day [14] (next_business_day [14] 12) = true ∧
      next_business_day [14] 12 ≤ 15 ∧ next_business_day [14] 15 = 15 :=
  ⟨(c7_business_day_contract [14] 12 15).2.2.1,
   (c7_business_day_contract [14] 12 15).2.2.2.1 (by decide) (by decide),
   (c7_business_day_contract [14] 15 15).2.2.2.2 (by decide)⟩

/-- C8: for every start date and every (finite) holiday list, the literal
one-day-at-a-time forward scan of `_get_next_business_day` terminates:
some finite step budget makes it stop, and it stops at the resolver's
result, which is a business day. -/
theorem c8_scan_terminates (holidays : List Nat) (d : Nat) :
    ∃ n, bday_scan holidays n d = some (next_business_day holidays d) ∧
      is_business_day holidays (next_business_day holidays d) = true := by
  refine ⟨fuelBound holidays d, ?_, nbd_is_business holidays d⟩
  exact bday_scan_eq holidays (fuelBound holidays d) d
    ⟨fuelBound holidays d, le_refl _, exists_business_in_fuel holidays d⟩

/-- C4 (amended): the resolver's three-tier fallback.  The actual date is
always `next_business_day` of the nominal date; no USD price there gives
`(none, none, none)` without raising; USD price but no FX rate gives
`(usd, none, none)`; both present (the rate positive, as the data model
guarantees for loaded FX rates) gives all four fields with the GBP price
equal to the *exact* quotient `usd / rate` — the source applies no rounding
at this point (the claim's "rounded to 6 decimal places" is refuted by
`c4_resolver_fallback_counterexample`). -/
theorem c4_resolver_fallback (c : VPC) (d : Nat) :
    (c.stock_prices.lookup (next_business_day c.holidays d) = none →
      get_vest_price c (DStr.valid d) =
        (none, none, none, DStr.valid (next_business_day c.holidays d))) ∧
    (∀ u, c.stock_prices.lookup (next_business_day c.holidays d) = some u →
      c.forex_rates.lookup (next_business_day c.holidays d) = none →
      get_vest_price c (DStr.valid d) =
        (some u, none, none, DStr.valid (next_business_day c.holidays d))) ∧
    (∀ u ρ, c.stock_prices.lookup (next_business_day c.holidays d) = some u →
      c.forex_rates.lookup (next_business_day c.holidays d) = some ρ → 0 < ρ →
      get_vest_price c (DStr.valid d) =
        (some u, some ρ, some (u / ρ), DStr.valid (next_business_day c.holidays d))) := by
  refine ⟨?_, ?_, ?_⟩
  · intro h
    simp only [get_vest_price, h]
  · intro u h1 h2
    simp only [get_vest_price, h1, h2]
  · intro u ρ h1 h2 h3
    simp only [get_vest_price, h1, h2]
    rw [if_neg (ne_of_gt h3)]

/-- C4 witness: with a stock price of 10 and a rate of 3 on business day 16,
the resolver returns `(10, 3, 10/3, 16)`. -/
theorem c4_resolver_fallback_witness :
    get_vest_price c4c (DStr.valid 16) =
      (some 10, some 3, some ((10 : ℚ) / 3), DStr.valid 16) := by
  have hnbd : next_business_day c4c.holidays 16 = 16 := by decide
  have h := (c4_resolver_fallback c4c 16).2.2 10 3
    (by rw [hnbd]; rfl) (by rw [hnbd]; rfl) (by norm_num)
  rw [h, hnbd]

/-- C4 counterexample: the claim states the returned GBP price is
`usd / rate` *rounded to 6 decimal places*; at stock price 10 and rate 3
the source returns the exact quotient `10/3`, which differs from its own
6-decimal rounding, so the returned tuple is not the claimed one. -/
theorem c4_resolver_fallback_counterexample :
    get_vest_price c4c (DStr.valid 16) =
      (some 10, some 3, some ((10 : ℚ) / 3), DStr.valid 16) ∧
    round6 ((10 : ℚ) / 3) ≠ (10 : ℚ) / 3 ∧
    get_vest_price c4c (DStr.valid 16) ≠
      (some 10, some 3, some (round6 ((10 : ℚ) / 3)), DStr.valid 16) := by
  have hnbd : next_business_day c4c.holidays 16 = 16 := by decide
  have hval : get_vest_price c4c (DStr.valid 16) =
      (some 10, some 3, some ((10 : ℚ) / 3), DStr.valid 16) := by
    simp only [get_vest_price, hnbd]
    norm_num [c4c, List.lookup]
  have hr : round6 ((10 : ℚ) / 3) = 3333333 / 1000000 := by
    have hfl : (⌊(10 : ℚ) / 3 * 1000000⌋ : ℤ) = 3333333 := by
      rw [Int.floor_eq_iff]
      norm_num
    norm_num [round6, rhe, Int.fract, hfl, round_eq]
  refine ⟨hval, by rw [hr]; norm_num, ?_⟩
  rw [hval, hr]
  intro h
  have := congrArg (fun t => t.2.2.1) h
  simp only [Option.some.injEq] at this
  norm_num at this

/-- C10: `get_vest_price` is total and never raises.  The `except` branch is
explicit: a malformed vest-date string is returned as the fourth component
unchanged (so the reported "actual date" is *not* business-day resolved),
with all three price fields `None`; the same branch also catches the
`ZeroDivisionError` of a zero FX rate, again returning the nominal input. -/
theorem c10_exception_branch :
    (∀ (c : VPC) (s : String),
      get_vest_price c (DStr.malformed s) = (none, none, none, DStr.malformed s)) ∧
    (∀ (c : VPC) (d : Nat) (u : ℚ),
      c.stock_prices.lookup (next_business_day c.holidays d) = some u →
      c.forex_rates.lookup (next_business_day c.holidays d) = some 0 →
      get_vest_price c (DStr.valid d) = (none, none, none, DStr.valid d)) := by
  constructor
  · intro c s
    rfl
  · intro c d u h1 h2
    simp only [get_vest_price, h1, h2]
    simp

/-- C10 witness: a concrete malformed date string is passed through
unchanged, and a concrete zero-rate index trips the same branch. -/
theorem c10_exception_branch_witness :
    get_vest_price c10z (DStr.malformed "not-a-date") =
      (none, none, none, DStr.malformed "not-a-date") ∧
    get_vest_price c10z (DStr.valid 16) = (none, none, none, DStr.valid 16) := by
  constructor
  · exact c10_exception_branch.1 c10z "not-a-date"
  · have hnbd : next_business_day c10z.holidays 16 = 16 := by decide
    exact c10_exception_branch.2 c10z 16 10 (by rw [hnbd]; rfl) (by rw [hnbd]; rfl)

/-- C9 (code bug): the claim — and the spec's own "still emitted, not
corrected" wording — describes the evident intent of lines 65-80 (warn and
continue), but on any batch with a negative quantity the code *aborts*: the
counter is incremented by the number of negative rows, and the very next
line (72) selects `neg_qty[['Date', 'Grant Number', 'Qty.']]` on the gains
frame, which has no `Date` column, raising `KeyError`, which
`process_gains_losses` re-raises — no rows are emitted at all.  With no
negative quantities the frame passes through unchanged. -/
theorem c9_negative_quantities_abort :
    ¬ "Date" ∈ gains_columns ∧
    (validate_numeric_values [s9neg]).1 = 1 ∧
    (validate_numeric_values [s9neg]).2 = Except.error "KeyError" ∧
    process_gains_losses [s9neg] = Except.error "KeyError" ∧
    process_gains_losses [s9pos] = Except.ok ([s9pos], 0) := by
  have hdate : ("Date" ∈ gains_columns) = False := by
    simp [gains_columns]
  have hneg : (validate_numeric_values [s9neg])
      = (1, Except.error "KeyError") := by
    norm_num [validate_numeric_values, s9neg, List.filter_cons, List.isEmpty]
    intro h
    simp [gains_columns] at h
  have hpos : (validate_numeric_values [s9pos]) = (0, Except.ok ()) := by
    norm_num [validate_numeric_values, s9pos, List.filter_cons, List.isEmpty]
  refine ⟨by simp [hdate], ?_, ?_, ?_, ?_⟩
  · rw [hneg]
  · rw [hneg]
  · unfold process_gains_losses
    rw [hneg]
  · unfold process_gains_losses
    rw [hpos]

/-- A filter and its complement partition the length. -/
theorem filter_partition_length {α : Type} (p : α → Bool) (l : List α) :
    (l.filter p).length + (l.filter (fun x => ! p x)).length = l.length := by
  induction l with
  | nil => rfl
  | cons a t ih =>
    by_cases h : p a = true
    · simp only [List.filter_cons, h, Bool.not_true, if_true, if_false,
        Bool.false_eq_true, List.length_cons]
      omega
    · have h2 : p a = false := Bool.eq_false_iff.mpr h
      simp only [List.filter_cons, h2, Bool.not_false, if_true, if_false,
        Bool.false_eq_true, List.length_cons]
      omega

/-- A filter and its complement partition any mapped sum. -/
theorem filter_partition_sum {α : Type} (p : α → Bool) (f : α → ℚ) (l : List α) :
    ((l.filter p).map f).sum + ((l.filter (fun x => ! p x)).map f).sum
      = (l.map f).sum := by
  induction l with
  | nil => simp
  | cons a t ih =>
    by_cases h : p a = true
    · simp only [List.filter_cons, h, Bool.not_true, if_true, if_false,
        Bool.false_eq_true, List.map_cons, List.sum_cons]
      rw [← ih]
      ring
    · have h2 : p a = false := Bool.eq_false_iff.mpr h
      simp only [List.filter_cons, h2, Bool.not_false, if_true, if_false,
        Bool.false_eq_true, List.map_cons, List.sum_cons]
      rw [← ih]
      ring

/-- Rows selected by the similarity mask carry a present price. -/
theorem similar_price_isSome {tol : ℚ} {ref : Option ℚ} {r : Rec}
    (h : similar tol ref r = true) : ∃ q, r.price = some q := by
  unfold similar at h
  cases href : ref with
  | none => rw [href] at h; cases h
  | some p =>
    cases hq : r.price with
    | none => rw [href, hq] at h; cases h
    | some q => exact ⟨q, rfl⟩

/-- The merged record's quantity is the bucket's quantity sum. -/
theorem mergeBucket_qty (k : GKey) (bucket : List Rec) :
    (mergeBucket k bucket).qty = (bucket.map (fun r => r.qty)).sum := by
  unfold mergeBucket
  split <;> rfl

/-- The merged record keeps the group key. -/
theorem mergeBucket_gkey (k : GKey) (bucket : List Rec) :
    gkey (mergeBucket k bucket) = some k := by
  obtain ⟨a, b, c, d⟩ := k
  unfold mergeBucket
  split <;> rfl

/-- Decomposition of the bucketing loop's output: every emitted record is
either one of the group's rows passed through unchanged, or the merge of a
bucket of more than one of the group's rows, each with a present price. -/
theorem greedyF_mem (tol : ℚ) (k : GKey) :
    ∀ n (g : List Rec) (r : Rec), g.length ≤ n → r ∈ greedyF tol k n g →
      r ∈ g ∨ ∃ bucket, 1 < bucket.length ∧ (∀ b ∈ bucket, b ∈ g) ∧
        (∀ b ∈ bucket, ∃ q, b.price = some q) ∧ r = mergeBucket k bucket := by
  intro n
  induction n with
  | zero =>
    intro g r hlen hr
    have : g = [] := List.length_eq_zero.mp (by omega)
    subst this
    cases hr
  | succ n ih =>
    intro g r hlen hr
    cases g with
    | nil => cases hr
    | cons r0 rest =>
      rw [greedyF] at hr
      by_cases hb : 1 < ((r0 :: rest).filter (similar tol r0.price)).length
      · rw [if_pos hb] at hr
        rcases List.mem_cons.mp hr with rfl | hr
        · refine Or.inr ⟨(r0 :: rest).filter (similar tol r0.price), hb, ?_, ?_, rfl⟩
          · exact fun b hbmem => (List.mem_filter.mp hbmem).1
          · exact fun b hbmem => similar_price_isSome (List.mem_filter.mp hbmem).2
        · have hlen2 : ((r0 :: rest).filter (fun r => ! similar tol r0.price r)).length ≤ n := by
            have := filter_partition_length (similar tol r0.price) (r0 :: rest)
            simp only [List.length_cons] at hlen this
            omega
          rcases ih _ r hlen2 hr with hmem | ⟨bucket, h1, h2, h3, h4⟩
          · exact Or.inl ((List.mem_filter.mp hmem).1)
          · exact Or.inr ⟨bucket, h1,
              fun b hbm => (List.mem_filter.mp (h2 b hbm)).1, h3, h4⟩
      · rw [if_neg hb] at hr
        rcases List.mem_cons.mp hr with rfl | hr
        · exact Or.inl (List.mem_cons_self _ _)
        · have hlen2 : rest.length ≤ n := by
            simp only [List.length_cons] at hlen
            omega
          rcases ih rest r hlen2 hr with hmem | ⟨bucket, h1, h2, h3, h4⟩
          · exact Or.inl (List.mem_cons_of_mem r0 hmem)
          · exact Or.inr ⟨bucket, h1,
              fun b hbm => List.mem_cons_of_mem r0 (h2 b hbm), h3, h4⟩

/-- The bucketing loop conserves the total quantity of its group. -/
theorem greedyF_qty_sum (tol : ℚ) (k : GKey) :
    ∀ n (g : List Rec), g.length ≤ n →
      ((greedyF tol k n g).map (fun r => r.qty)).sum
        = (g.map (fun r => r.qty)).sum := by
  intro n
  induction n with
  | zero =>
    intro g hlen
    have : g = [] := List.length_eq_zero.mp (by omega)
    subst this
    rfl
  | succ n ih =>
    intro g hlen
    cases g with
    | nil => rfl
    | cons r0 rest =>
      rw [greedyF]
      by_cases hb : 1 < ((r0 :: rest).filter (similar tol r0.price)).length
      · rw [if_pos hb]
        have hlen2 : ((r0 :: rest).filter (fun r => ! similar tol r0.price r)).length ≤ n := by
          have := filter_partition_length (similar tol r0.price) (r0 :: rest)
          simp only [List.length_cons] at hlen this
          omega
        have hpart := filter_partition_sum (similar tol r0.price) (fun r => r.qty) (r0 :: rest)
        rw [List.map_cons, List.sum_cons, mergeBucket_qty, ih _ hlen2, ← hpart]
      · rw [if_neg hb]
        have hlen2 : rest.length ≤ n := by
          simp only [List.length_cons] at hlen
          omega
        simp only [List.map_cons, List.sum_cons, ih rest hlen2]

/-- Decomposition of `consolidate_similar_prices`: every output record has a
group key and is either an input record or the merge of a bucket of more
than one input record sharing that key, each with a present price. -/
theorem csp_mem {tol : ℚ} {df : List Rec} {r : Rec}
    (h : r ∈ consolidate_similar_prices tol df) :
    ∃ k, gkey r = some k ∧
      (r ∈ df ∨ ∃ bucket, 1 < bucket.length ∧
        (∀ b ∈ bucket, b ∈ df ∧ gkey b = some k ∧ ∃ q, b.price = some q) ∧
        r = mergeBucket k bucket) := by
  unfold consolidate_similar_prices at h
  rcases List.mem_flatMap.mp h with ⟨k, _, hr⟩
  by_cases hbuy : k.2.1 = "Buy"
  · rw [if_pos hbuy] at hr
    have := List.mem_filter.mp hr
    exact ⟨k, of_decide_eq_true this.2, Or.inl this.1⟩
  · rw [if_neg hbuy] at hr
    rcases greedyF_mem tol k _ _ r (le_refl _) hr with hmem | ⟨bucket, h1, h2, h3, h4⟩
    · have := List.mem_filter.mp hmem
      exact ⟨k, of_decide_eq_true this.2, Or.inl this.1⟩
    · refine ⟨k, h4 ▸ mergeBucket_gkey k bucket, Or.inr ⟨bucket, h1, ?_, h4⟩⟩
      intro b hbm
      have hmem := List.mem_filter.mp (h2 b hbm)
      exact ⟨hmem.1, of_decide_eq_true hmem.2, h3 b hbm⟩

/-- Membership through sorted insertion. -/
theorem mem_insertByDate {x r : Rec} {l : List Rec} :
    x ∈ insertByDate r l ↔ x = r ∨ x ∈ l := by
  induction l with
  | nil => simp [insertByDate]
  | cons a t ih =>
    unfold insertByDate
    by_cases h : a.date.getD 0 ≤ r.date.getD 0
    · rw [if_pos h]
      simp only [List.mem_cons, ih]
      tauto
    · rw [if_neg h]
      simp only [List.mem_cons]

/-- The final date sort neither adds nor removes records. -/
theorem mem_sortByDate {x : Rec} {l : List Rec} : x ∈ sortByDate l ↔ x ∈ l := by
  induction l with
  | nil => simp [sortByDate]
  | cons a t ih =>
    unfold sortByDate at ih ⊢
    simp only [List.foldr_cons, mem_insertByDate, ih, List.mem_cons]

/-- Specification of `List.min?` over the rationals. -/
theorem minQ_spec {l : List ℚ} {m : ℚ} :
    l.min? = some m ↔ m ∈ l ∧ ∀ b ∈ l, m ≤ b :=
  have : Std.Antisymm (fun (x1 x2 : ℚ) => x1 ≤ x2) := ⟨@le_antisymm ℚ _⟩
  List.min?_eq_some_iff (fun a => le_refl a) (fun a b => min_choice a b)
    (fun _ _ _ => le_min_iff)

/-- Every multiplicity is bounded by `maxCount`. -/
theorem count_le_maxCount {l : List ℚ} {x : ℚ} (hx : x ∈ l) :
    l.count x ≤ maxCount l := by
  unfold maxCount
  exact le_foldr_max 0 (List.mem_map_of_mem (fun y => l.count y) hx)

/-- `foldr max 0` of a list is a member or zero. -/
theorem foldr_max_mem (m : List Nat) : m.foldr max 0 ∈ m ∨ m.foldr max 0 = 0 := by
  induction m with
  | nil => exact Or.inr rfl
  | cons a t ih =>
    simp only [List.foldr_cons]
    rcases Nat.le_total a (t.foldr max 0) with h | h
    · rw [max_eq_right h]
      rcases ih with h2 | h2
      · exact Or.inl (List.mem_cons_of_mem a h2)
      · rw [h2]
        rw [h2] at h
        interval_cases a
        exact Or.inl (List.mem_cons_self 0 t)
    · rw [max_eq_left h]
      exact Or.inl (List.mem_cons_self a t)

/-- On a nonempty list, `maxCount` is attained. -/
theorem maxCount_attained {l : List ℚ} (hl : l ≠ []) :
    ∃ x ∈ l, l.count x = maxCount l := by
  rcases foldr_max_mem (l.map (fun y => l.count y)) with h | h
  · rcases List.mem_map.mp h with ⟨x, hx, hcount⟩
    exact ⟨x, hx, hcount⟩
  · match l, hl with
    | a :: t, _ =>
      have ha : (a :: t).count a ≤ maxCount (a :: t) :=
        count_le_maxCount (List.mem_cons_self a t)
      have hpos : 0 < (a :: t).count a := List.count_pos_iff.mpr (List.mem_cons_self a t)
      unfold maxCount at ha ⊢
      omega

/-- `modeQ` returns the smallest among the maximally frequent values:
exactly what `Series.mode().iloc[0]` produces (mode sorts ascending). -/
theorem modeQ_spec {l : List ℚ} (hl : l ≠ []) :
    ∃ m, modeQ l = some m ∧ m ∈ l ∧
      ∀ x ∈ l, l.count x ≤ l.count m ∧ (l.count x = l.count m → m ≤ x) := by
  obtain ⟨x0, hx0, hc0⟩ := maxCount_attained hl
  have hne : l.filter (fun x => l.count x = maxCount l) ≠ [] := by
    intro hemp
    have : x0 ∈ l.filter (fun x => l.count x = maxCount l) :=
      List.mem_filter.mpr ⟨hx0, by simpa using hc0⟩
    rw [hemp] at this
    cases this
  obtain ⟨m, hm⟩ := List.exists_mem_of_ne_nil _ hne
  obtain ⟨m', hmin⟩ : ∃ m', (l.filter (fun x => l.count x = maxCount l)).min? = some m' := by
    cases hcase : (l.filter (fun x => l.count x = maxCount l)).min? with
    | none =>
      rw [List.min?_eq_none_iff] at hcase
      exact absurd hcase hne
    | some y => exact ⟨y, rfl⟩
  have hspec := minQ_spec.mp hmin
  have hmem' := List.mem_filter.mp hspec.1
  refine ⟨m', hmin, hmem'.1, ?_⟩
  intro x hx
  have hmc : l.count m' = maxCount l := by simpa using hmem'.2
  constructor
  · rw [hmc]
    exact count_le_maxCount hx
  · intro hcx
    have : x ∈ l.filter (fun y => l.count y = maxCount l) :=
      List.mem_filter.mpr ⟨hx, by simp [hcx, hmc]⟩
    exact hspec.2 x this

/-- On a nonempty constant list, `modeQ` returns the constant. -/
theorem modeQ_const {l : List ℚ} {ρ : ℚ} (hl : l ≠ []) (hall : ∀ x ∈ l, x = ρ) :
    modeQ l = some ρ := by
  obtain ⟨m, hm, hmem, _⟩ := modeQ_spec hl
  rw [hm, hall m hmem]

/-- C6: consolidation never splits or alters total quantity.  Every record
the price consolidator emits is either an input record passed through
unchanged or the merge of a bucket of more than one input record whose
quantity is exactly the sum of the member quantities; moreover the bucketing
loop conserves the total quantity of each group it processes. -/
theorem c6_quantity_conservation :
    (∀ (tol : ℚ) (df : List Rec) (r : Rec), r ∈ consolidate_similar_prices tol df →
      r ∈ df ∨ ∃ k bucket, 1 < bucket.length ∧ (∀ b ∈ bucket, b ∈ df) ∧
        r = mergeBucket k bucket ∧ r.qty = (bucket.map (fun b => b.qty)).sum) ∧
    (∀ (tol : ℚ) (k : GKey) (g : List Rec),
      ((greedy tol k g).map (fun r => r.qty)).sum = (g.map (fun r => r.qty)).sum) := by
  constructor
  · intro tol df r hr
    rcases csp_mem hr with ⟨k, _, hcase⟩
    rcases hcase with hmem | ⟨bucket, h1, h2, h4⟩
    · exact Or.inl hmem
    · exact Or.inr ⟨k, bucket, h1, fun b hb => (h2 b hb).1,
        h4, h4 ▸ mergeBucket_qty k bucket⟩
  · intro tol k g
    exact greedyF_qty_sum tol k g.length g (le_refl _)

/-- C6 witness: merging the two-record group `[rA, rB]` (quantities 1 and 2)
yields total quantity 3, and the decomposition applies to the concrete
merged output record. -/
theorem c6_quantity_conservation_witness :
    ((greedy (1 / 100) k0 [rA, rB]).map (fun r => r.qty)).sum = 3 ∧
      (mergeBucket k0 [rA, rB] ∈ ([rA, rB] : List Rec) ∨
        ∃ k bucket, 1 < bucket.length ∧ (∀ b ∈ bucket, b ∈ ([rA, rB] : List Rec)) ∧
          mergeBucket k0 [rA, rB] = mergeBucket k bucket ∧
          (mergeBucket k0 [rA, rB]).qty = (bucket.map (fun b => b.qty)).sum) := by
  have hout : consolidate_similar_prices (1 / 100) [rA, rB] = [mergeBucket k0 [rA, rB]] := by
    norm_num [consolidate_similar_prices, rA, rB, k0, gkey, greedy, greedyF, similar,
      List.dedup, List.pwFilter, List.filterMap, List.flatMap,
      show (("Sell" : String) = "Buy") = False by simp]
  constructor
  · rw [c6_quantity_conservation.2 (1 / 100) k0 [rA, rB]]
    norm_num [rA, rB]
  · exact (Or.elim
      (c6_quantity_conservation.1 (1 / 100) [rA, rB] (mergeBucket k0 [rA, rB])
        (by rw [hout]; exact List.mem_cons_self _ _))
      Or.inl Or.inr)

/-- C5 (amended): when a bucket is merged in the GBP branch, the emitted
exchange rate is the most frequent among the present rates of the bucket
members, and when several rates are tied for most frequent the *smallest*
rate is chosen — `Series.mode()` sorts its result ascending and `.iloc[0]`
takes the smallest, not the first occurrence in the bucket (the
first-occurrence tie-break the claim states is refuted by
`c5_mode_tiebreak_counterexample`).  Every consolidator output is an input
record or such a merge. -/
theorem c5_mode_tiebreak :
    (∀ (k : GKey) (bucket : List Rec),
      (∃ b ∈ bucket, b.priceGBP.isSome) →
      bucket.filterMap (fun r => r.fx) ≠ [] →
      ∃ ρ, (mergeBucket k bucket).fx = some ρ ∧
        ρ ∈ bucket.filterMap (fun r => r.fx) ∧
        ∀ x ∈ bucket.filterMap (fun r => r.fx),
          (bucket.filterMap (fun r => r.fx)).count x ≤
              (bucket.filterMap (fun r => r.fx)).count ρ ∧
            ((bucket.filterMap (fun r => r.fx)).count x =
                (bucket.filterMap (fun r => r.fx)).count ρ → ρ ≤ x)) ∧
    (∀ (tol : ℚ) (df : List Rec) (r : Rec), r ∈ consolidate_similar_prices tol df →
      r ∈ df ∨ ∃ k bucket, 1 < bucket.length ∧ (∀ b ∈ bucket, b ∈ df) ∧
        r = mergeBucket k bucket) := by
  constructor
  · intro k bucket hgbp hne
    obtain ⟨m, hm, hmem, hmode⟩ := modeQ_spec hne
    refine ⟨m, ?_, hmem, hmode⟩
    unfold mergeBucket
    rw [if_pos ?_]
    · exact hm
    · obtain ⟨b, hb, hsome⟩ := hgbp
      exact List.any_eq_true.mpr ⟨b, hb, hsome⟩
  · intro tol df r hr
    rcases csp_mem hr with ⟨k, _, hcase⟩
    rcases hcase with hmem | ⟨bucket, h1, h2, h4⟩
    · exact Or.inl hmem
    · exact Or.inr ⟨k, bucket, h1, fun b hb => (h2 b hb).1, h4⟩

/-- C5 witness: merging the bucket `[rA, rB]` (present rates 2 and 1, tied
in frequency) emits some rate that is maximally frequent and smallest among
ties. -/
theorem c5_mode_tiebreak_witness :
    ∃ ρ, (mergeBucket k0 [rA, rB]).fx = some ρ ∧
      ρ ∈ ([rA, rB] : List Rec).filterMap (fun r => r.fx) ∧
      ∀ x ∈ ([rA, rB] : List Rec).filterMap (fun r => r.fx),
        (([rA, rB] : List Rec).filterMap (fun r => r.fx)).count x ≤
            (([rA, rB] : List Rec).filterMap (fun r => r.fx)).count ρ ∧
          ((([rA, rB] : List Rec).filterMap (fun r => r.fx)).count x =
              (([rA, rB] : List Rec).filterMap (fun r => r.fx)).count ρ → ρ ≤ x) :=
  c5_mode_tiebreak.1 k0 [rA, rB]
    ⟨rA, List.mem_cons_self _ _, by norm_num [rA]⟩
    (by simp [rA, rB, List.filterMap])

/-- C5 counterexample: in the bucket `[rA, rB]` the rates 2 and 1 are tied
for most frequent and 2 occurs first, yet the merged record carries rate 1
(the smallest), not 2 — the claimed first-occurrence tie-break is false. -/
theorem c5_mode_tiebreak_counterexample :
    (consolidate_similar_prices (1 / 100) [rA, rB]).map (fun r => r.fx) = [some 1] ∧
      rA.fx = some 2 ∧
      (consolidate_similar_prices (1 / 100) [rA, rB]).map (fun r => r.fx) ≠ [some 2] := by
  refine ⟨?_, rfl, ?_⟩
  · norm_num [consolidate_similar_prices, rA, rB, gkey, DStr.toDay, greedy, greedyF, similar,
      mergeBucket, wavg, modeQ, maxCount, round6, rhe, round_eq, Int.fract, List.filterMap,
      List.dedup, List.pwFilter, List.flatMap, List.count_cons, List.min?, min_def,
      show (("Sell" : String) = "Buy") = False by simp]
  · intro hbad
    have h1 : (consolidate_similar_prices (1 / 100) [rA, rB]).map (fun r => r.fx)
        = [some 1] := by
      norm_num [consolidate_similar_prices, rA, rB, gkey, DStr.toDay, greedy, greedyF, similar,
        mergeBucket, wavg, modeQ, maxCount, round6, rhe, round_eq, Int.fract, List.filterMap,
        List.dedup, List.pwFilter, List.flatMap, List.count_cons, List.min?, min_def,
        show (("Sell" : String) = "Buy") = False by simp]
    rw [h1] at hbad
    simp only [List.cons.injEq, Option.some.injEq] at hbad
    norm_num at hbad

/-- Records whose `Date` is absent are invisible to
`consolidate_similar_prices`: the groupby drops them (pandas
`dropna=True`), so inserting such a record anywhere changes nothing. -/
theorem csp_ignores_dateless (tol : ℚ) (l1 l2 : List Rec) (r : Rec)
    (hr : r.date = none) :
    consolidate_similar_prices tol (l1 ++ r :: l2)
      = consolidate_similar_prices tol (l1 ++ l2) := by
  have hk : gkey r = none := by
    unfold gkey
    rw [hr]
  unfold consolidate_similar_prices
  have h1 : (l1 ++ r :: l2).filterMap gkey = (l1 ++ l2).filterMap gkey := by
    simp only [List.filterMap_append, List.filterMap_cons, hk]
  rw [h1]
  congr 1
  funext k
  have h2 : (l1 ++ r :: l2).filter (fun x => gkey x = some k)
      = (l1 ++ l2).filter (fun x => gkey x = some k) := by
    simp only [List.filter_append, List.filter_cons, hk]
    simp
  rw [h2]

/-- C1 (amended): a vest with no known FMV whose resolved business date has
no USD price is counted once in the `missing_fmv` statistic, its Buy row
gets no date (`Actual_Vest_Date` is never assigned for it) and the pipeline
result is exactly the result obtained without the event — whatever that
result is; and provided at least one *other* vest row in the batch is
priced (so the `Actual_Vest_Date` column exists at all), the run returns a
ledger, which therefore contains no record for the event while every other
record is processed.  When *no* vest row is ever priced the run instead
aborts with `KeyError` at line 329 (see the counterexample), so the
unconditional "processing of all other records continues" fails there. -/
theorem c1_missing_fmv_excluded (c : VPC) (sales : List SaleRow)
    (pre post : List VestRow) (v : VestRow) (d : Nat)
    (hfmv : v.fmv = none) (hd : v.date = DStr.valid d)
    (hus : c.stock_prices.lookup (next_business_day c.holidays d) = none) :
    missingFMVCount c (pre ++ v :: post) = missingFMVCount c (pre ++ post) + 1 ∧
    (vestToBuy (processVestRow c v)).date = none ∧
    consolidate_transactions c sales (pre ++ v :: post)
      = consolidate_transactions c sales (pre ++ post) ∧
    ((pre ++ post).any (vestAssigns c) = true →
      ∃ out, consolidate_transactions c sales (pre ++ v :: post) = Except.ok out) := by
  have husd : (get_vest_price c v.date).1 = none := by
    rw [hd]
    simp only [get_vest_price, hus]
  have hdate : (vestToBuy (processVestRow c v)).date = none := by
    rcases hgvp : get_vest_price c v.date with ⟨u, f, g, a⟩
    rw [hgvp] at husd
    simp only at husd
    subst husd
    simp only [processVestRow, hfmv, hgvp, vestToBuy]
  have hvassign : vestAssigns c v = false := by
    simp only [vestAssigns, hfmv, husd, Option.isSome_none]
  have hanyeq : (pre ++ v :: post).any (vestAssigns c)
      = (pre ++ post).any (vestAssigns c) := by
    simp [List.any_append, List.any_cons, hvassign]
  refine ⟨?_, hdate, ?_, ?_⟩
  · unfold missingFMVCount
    rw [List.countP_append, List.countP_cons, List.countP_append]
    simp only [hfmv, husd, and_self, decide_True, if_true]
    omega
  · unfold consolidate_transactions
    rw [hanyeq]
    by_cases hguard : (pre ++ post).any (vestAssigns c) = true
    · rw [if_pos hguard, if_pos hguard]
      congr 1
      simp only [List.map_append, List.map_cons, List.cons_append, List.append_assoc]
      rw [csp_ignores_dateless _ _ _ _ hdate]
    · rw [if_neg hguard, if_neg hguard]
  · intro hassign
    unfold consolidate_transactions
    rw [if_pos (hanyeq ▸ hassign)]
    exact ⟨_, rfl⟩

/-- C1 witness: `vM` (no FMV, no stock price on its resolved day 3) is
counted in `missing_fmv`, its Buy row is dateless, and — with the priced
vest `v1b` present — the run returns a ledger equal to the one computed
without `vM`. -/
theorem c1_missing_fmv_excluded_witness :
    missingFMVCount cw1 [vM, v1b] = missingFMVCount cw1 [v1b] + 1 ∧
    (vestToBuy (processVestRow cw1 vM)).date = none ∧
    consolidate_transactions cw1 [] [vM, v1b] = consolidate_transactions cw1 [] [v1b] ∧
    ∃ out, consolidate_transactions cw1 [] [vM, v1b] = Except.ok out := by
  have h := c1_missing_fmv_excluded cw1 [] [] [v1b] vM 3 rfl rfl (by decide)
  have hany : [v1b].any (vestAssigns cw1) = true := by decide
  exact ⟨h.1, h.2.1, h.2.2.1, h.2.2.2 hany⟩

/-- C1 counterexample: when no vest in the batch is ever priced — here the
stock index is empty, so the no-FMV vest `v1` finds no USD price and the
known-FMV vest `v1b` gets no rate either — the event is still counted in
`missing_fmv`, but the `Actual_Vest_Date` column is never created and the
run aborts with `KeyError` at line 329: processing of the other records
does *not* continue, refuting the claim as stated. -/
theorem c1_missing_fmv_excluded_counterexample :
    missingFMVCount c1c [v1, v1b] = 1 ∧
    consolidate_transactions c1c [] [v1, v1b] = Except.error "KeyError" := by
  constructor
  · norm_num [missingFMVCount, v1, v1b, get_vest_price, c1c, next_business_day,
      fuelBound, nbd_fuel, is_business_day, List.lookup, List.countP_cons]
    simp
  · norm_num [consolidate_transactions, vestAssigns, v1, v1b, get_vest_price, c1c,
      next_business_day, fuelBound, nbd_fuel, is_business_day, List.lookup,
      List.any_cons]

/-- C2 (code bug): a vest with a *known* FMV whose resolved business date
has no FX rate gets no `Actual_Vest_Date` (the loop assigns it only inside
`if fx_rate is not None`, lines 322-326), so its Buy record's date is
absent — not the resolved business day 15 — contradicting the claimed
invariant.  Downstream, with another priced vest present the record is then
silently dropped from the returned ledger by the date-keyed consolidation
groupby (contradicting the spec's "still emits the Buy record" /
"no transaction is silently dropped" statements); if it is the only vest,
the date column is never created at all and the run aborts with `KeyError`
at line 329. -/
theorem c2_known_fmv_date_bug :
    next_business_day c2c.holidays 12 = 15 ∧
    is_business_day c2c.holidays 15 = true ∧
    (processVestRow c2c v2).fmv = some 12 ∧
    (vestToBuy (processVestRow c2c v2)).date = none ∧
    consolidate_transactions c2c [] [v2, v2b]
      = Except.ok [vestToBuy (processVestRow c2c v2b)] ∧
    consolidate_transactions c2c [] [v2] = Except.error "KeyError" := by
  refine ⟨by decide, by decide, ?_, ?_, ?_, ?_⟩
  · norm_num [processVestRow, v2, get_vest_price, c2c,
      next_business_day, fuelBound, nbd_fuel, is_business_day, List.lookup]
  · norm_num [processVestRow, vestToBuy, v2, get_vest_price, c2c,
      next_business_day, fuelBound, nbd_fuel, is_business_day, List.lookup]
  · norm_num [consolidate_transactions, vestAssigns, processVestRow, vestToBuy,
      v2, v2b, get_vest_price, c2c, next_business_day, fuelBound, nbd_fuel,
      is_business_day, List.lookup, List.any_cons, consolidate_similar_prices,
      gkey, DStr.toDay, greedy, greedyF, similar, sortByDate, insertByDate,
      List.filterMap, List.dedup, List.pwFilter, List.flatMap]
    simp [insertByDate]
  · norm_num [consolidate_transactions, vestAssigns, v2, get_vest_price, c2c,
      next_business_day, fuelBound, nbd_fuel, is_business_day, List.lookup,
      List.any_cons]

/-- Round-half-to-even moves a rational by at most 1/2. -/
theorem rhe_close (t : ℚ) : |(rhe t : ℚ) - t| ≤ 1 / 2 := by
  unfold rhe
  by_cases h : Int.fract t = 1 / 2
  · rw [if_pos h]
    have ht : ((⌊t⌋ : ℚ)) + 1 / 2 = t := by
      nth_rewrite 2 [← Int.floor_add_fract t]
      rw [h]
    by_cases h2 : 2 ∣ ⌊t⌋
    · rw [if_pos h2]
      have harr : ((⌊t⌋ : ℤ) : ℚ) - t = -(1 / 2) := by linarith
      rw [harr, abs_neg, abs_of_pos (by norm_num : (0 : ℚ) < 1 / 2)]
    · rw [if_neg h2]
      have harr : ((⌊t⌋ + 1 : ℤ) : ℚ) - t = 1 / 2 := by
        push_cast
        linarith
      rw [harr, abs_of_pos (by norm_num : (0 : ℚ) < 1 / 2)]
  · rw [if_neg h]
    rw [abs_sub_comm]
    exact abs_sub_round t

/-- `round(x, 6)` moves a rational by at most half of the last decimal. -/
theorem round6_close (x : ℚ) : |round6 x - x| ≤ 1 / 2000000 := by
  unfold round6
  have h := rhe_close (x * 1000000)
  have harr : ((rhe (x * 1000000) : ℤ) : ℚ) / 1000000 - x
      = (((rhe (x * 1000000) : ℤ) : ℚ) - x * 1000000) / 1000000 := by
    ring
  rw [harr, abs_div, abs_of_pos (by norm_num : (0 : ℚ) < 1000000)]
  rw [div_le_iff₀ (by norm_num : (0 : ℚ) < 1000000)]
  calc |((rhe (x * 1000000) : ℤ) : ℚ) - x * 1000000| ≤ 1 / 2 := h
    _ = 1 / 2000000 * 1000000 := by norm_num

/-- Summing after dividing each term is dividing the sum. -/
theorem sum_div_each {l : List ℚ} {ρ : ℚ} :
    (l.map (fun x => x / ρ)).sum = l.sum / ρ := by
  induction l with
  | nil => simp
  | cons a t ih =>
    simp only [List.map_cons, List.sum_cons, ih, add_div]

/-- Dividing every price by `ρ` divides the weighted average by `ρ`
(weights unchanged; degenerate zero-weight case maps `0` to `0`). -/
theorem wavg_div (l : List (ℚ × ℚ)) (ρ : ℚ) :
    wavg (l.map (fun p => (p.1 / ρ, p.2))) = wavg l / ρ := by
  unfold wavg
  simp only [List.map_map]
  have hsnd : l.map (Prod.snd ∘ fun p => (p.1 / ρ, p.2)) = l.map Prod.snd :=
    List.map_congr_left (fun a _ => rfl)
  have hfst : l.map ((fun q => q.1 * q.2) ∘ fun p => (p.1 / ρ, p.2))
      = l.map (fun p => p.1 * p.2 / ρ) :=
    List.map_congr_left (fun a _ => by
      simp only [Function.comp_apply]
      ring)
  rw [hsnd, hfst]
  by_cases hW : (l.map Prod.snd).sum = 0
  · rw [if_pos hW, if_pos hW, zero_div]
  · rw [if_neg hW, if_neg hW]
    rw [show (l.map (fun p => p.1 * p.2 / ρ)) = (l.map (fun p => p.1 * p.2)).map (fun x => x / ρ)
      by rw [List.map_map]; exact List.map_congr_left (fun a _ => rfl)]
    rw [sum_div_each]
    rw [div_div, div_div, mul_comm]

/-- `filterMap` of an everywhere-`some ρ0` function is the constant map. -/
theorem filterMap_all_some {α : Type} {l : List α} {f : α → Option ℚ} {ρ0 : ℚ}
    (h : ∀ b ∈ l, f b = some ρ0) : l.filterMap f = l.map (fun _ => ρ0) := by
  induction l with
  | nil => rfl
  | cons a t ih =>
    rw [List.filterMap_cons, h a (List.mem_cons_self _ _), List.map_cons,
      ih (fun b hb => h b (List.mem_cons_of_mem a hb))]

/-- A record with a group key is dated by the key's date. -/
theorem gkey_date {r : Rec} {k : GKey} (h : gkey r = some k) : r.date = some k.1 := by
  unfold gkey at h
  cases hd : r.date with
  | none => rw [hd] at h; cases h
  | some d =>
    rw [hd] at h
    simp only [Option.some.injEq] at h
    rw [← h]

/-- `get_vest_price` on a well-formed date, written out. -/
theorem gvp_valid_eq (c : VPC) (d : Nat) :
    get_vest_price c (DStr.valid d) =
      match c.stock_prices.lookup (next_business_day c.holidays d) with
      | none => (none, none, none, DStr.valid (next_business_day c.holidays d))
      | some usd =>
        match c.forex_rates.lookup (next_business_day c.holidays d) with
        | none => (some usd, none, none, DStr.valid (next_business_day c.holidays d))
        | some r =>
          if r = 0 then (none, none, none, DStr.valid d)
          else (some usd, some r, some (usd / r),
            DStr.valid (next_business_day c.holidays d)) := rfl

/-- Inversion: a found USD price means a well-formed date, that price at
the resolved day, and one of the two tail branches. -/
theorem gvp_usd_some {c : VPC} {ds : DStr} {u : ℚ}
    (h : (get_vest_price c ds).1 = some u) :
    ∃ d, ds = DStr.valid d ∧
      c.stock_prices.lookup (next_business_day c.holidays d) = some u ∧
      ((c.forex_rates.lookup (next_business_day c.holidays d) = none ∧
        get_vest_price c ds =
          (some u, none, none, DStr.valid (next_business_day c.holidays d))) ∨
       (∃ ρ, ρ ≠ 0 ∧ c.forex_rates.lookup (next_business_day c.holidays d) = some ρ ∧
        get_vest_price c ds =
          (some u, some ρ, some (u / ρ), DStr.valid (next_business_day c.holidays d)))) := by
  cases ds with
  | malformed s => simp [get_vest_price] at h
  | valid d =>
    rcases Option.eq_none_or_eq_some
        (c.stock_prices.lookup (next_business_day c.holidays d)) with hs | ⟨usd, hs⟩
    · rw [gvp_valid_eq, hs] at h
      simp at h
    · rcases Option.eq_none_or_eq_some
          (c.forex_rates.lookup (next_business_day c.holidays d)) with hf | ⟨r, hf⟩
      · rw [gvp_valid_eq, hs, hf] at h
        simp only [Option.some.injEq] at h
        subst h
        exact ⟨d, rfl, hs, Or.inl ⟨hf, by rw [gvp_valid_eq, hs, hf]⟩⟩
      · by_cases hz : r = 0
        · rw [gvp_valid_eq, hs, hf] at h
          simp only [if_pos hz] at h
          cases h
        · rw [gvp_valid_eq, hs, hf] at h
          simp only [if_neg hz, Option.some.injEq] at h
          subst h
          exact ⟨d, rfl, hs,
            Or.inr ⟨r, hz, hf, by rw [gvp_valid_eq, hs, hf]; simp only [if_neg hz]⟩⟩

/-- Inversion: a found FX rate means the full-success branch. -/
theorem gvp_fx_some {c : VPC} {ds : DStr} {ρ : ℚ}
    (h : (get_vest_price c ds).2.1 = some ρ) :
    ∃ d u, ds = DStr.valid d ∧ ρ ≠ 0 ∧
      c.stock_prices.lookup (next_business_day c.holidays d) = some u ∧
      c.forex_rates.lookup (next_business_day c.holidays d) = some ρ ∧
      get_vest_price c ds =
        (some u, some ρ, some (u / ρ), DStr.valid (next_business_day c.holidays d)) := by
  cases ds with
  | malformed s => simp [get_vest_price] at h
  | valid d =>
    rcases Option.eq_none_or_eq_some
        (c.stock_prices.lookup (next_business_day c.holidays d)) with hs | ⟨usd, hs⟩
    · rw [gvp_valid_eq, hs] at h
      simp at h
    · rcases Option.eq_none_or_eq_some
          (c.forex_rates.lookup (next_business_day c.holidays d)) with hf | ⟨r, hf⟩
      · rw [gvp_valid_eq, hs, hf] at h
        simp at h
      · by_cases hz : r = 0
        · rw [gvp_valid_eq, hs, hf] at h
          simp only [if_pos hz] at h
          cases h
        · rw [gvp_valid_eq, hs, hf] at h
          simp only [if_neg hz, Option.some.injEq] at h
          subst h
          exact ⟨d, usd, rfl, hz, hs, hf,
            by rw [gvp_valid_eq, hs, hf]; simp only [if_neg hz]⟩

/-- At a business day with a stock price and a nonzero rate, the engine
rate is that rate. -/
theorem rateOf_some_of {c : VPC} {a : Nat} {u ρ : ℚ}
    (hbd : is_business_day c.holidays a = true)
    (hstock : c.stock_prices.lookup a = some u)
    (hfx : c.forex_rates.lookup a = some ρ) (hz : ρ ≠ 0) :
    rateOf c a = some ρ := by
  unfold rateOf
  rw [gvp_valid_eq, nbd_id c.holidays a hbd, hstock, hfx]
  simp only [if_neg hz]

/-- At a business day with a stock price but no rate, the engine rate is
absent. -/
theorem rateOf_none_of {c : VPC} {a : Nat} {u : ℚ}
    (hbd : is_business_day c.holidays a = true)
    (hstock : c.stock_prices.lookup a = some u)
    (hfx : c.forex_rates.lookup a = none) :
    rateOf c a = none := by
  unfold rateOf
  rw [gvp_valid_eq, nbd_id c.holidays a hbd, hstock, hfx]
/-- Every Sell record the normalizer emits is pricing-coherent: its rate
column is the engine rate of its own sale date, and its GBP price is
`proceeds / rate` exactly when that rate is present. -/
theorem recInv_sell (c : VPC) (s : SaleRow) : RecInv c (saleToSell c s) := by
  intro dt hdt
  rcases hfx : (get_vest_price c s.dateSold).2.1 with _ | ρ0
  · simp only [saleToSell, hfx] at hdt ⊢
    cases hds : s.dateSold with
    | malformed s0 =>
      rw [hds] at hdt
      simp [DStr.toDay] at hdt
    | valid d0 =>
      rw [hds] at hdt hfx
      simp only [DStr.toDay, Option.some.injEq] at hdt
      subst hdt
      have hrate : rateOf c d0 = none := hfx
      exact ⟨hrate.symm, fun ρ2 u2 h1 _ => absurd (hrate ▸ h1) (by simp),
        fun _ => trivial⟩
  · simp only [saleToSell, hfx] at hdt ⊢
    cases hds : s.dateSold with
    | malformed s0 =>
      rw [hds] at hdt
      simp [DStr.toDay] at hdt
    | valid d0 =>
      rw [hds] at hdt hfx
      simp only [DStr.toDay, Option.some.injEq] at hdt
      subst hdt
      have hrate : rateOf c d0 = some ρ0 := hfx
      refine ⟨hrate.symm, ?_, fun hnone => absurd (hrate ▸ hnone) (by simp)⟩
      intro ρ2 u2 h1 h2
      rw [hrate] at h1
      simp only [Option.some.injEq] at h1
      subst h1
      rw [h2]
      rfl

/-- Every Buy record the normalizer emits is pricing-coherent: whenever its
date is present it is the resolved business day, on which the stored rate is
the engine rate, and its GBP price is `price / rate` exactly when that rate
is present. -/
theorem recInv_buy (c : VPC) (v : VestRow) : RecInv c (vestToBuy (processVestRow c v)) := by
  intro dt hdt
  rcases hfmv : v.fmv with _ | f
  · -- FMV missing: the row was priced from the resolver, or left dateless
    rcases hgvp : get_vest_price c v.date with ⟨u?, f?, g?, a⟩
    rcases hu : u? with _ | u
    · subst hu
      simp only [processVestRow, hfmv, hgvp, vestToBuy] at hdt
      cases hdt
    · subst hu
      have husd : (get_vest_price c v.date).1 = some u := by rw [hgvp]
      obtain ⟨d, hds, hstock, hbranch⟩ := gvp_usd_some husd
      rcases hbranch with ⟨hfnone, heq⟩ | ⟨ρ, hz, hfsome, heq⟩
      · rw [hgvp] at heq
        obtain ⟨rfl, rfl, rfl⟩ : f? = none ∧ g? = none
            ∧ a = DStr.valid (next_business_day c.holidays d) := by
          injection heq with e1 e2
          injection e2 with e2 e3
          injection e3 with e3 e4
          exact ⟨e2, e3, e4⟩
        simp only [processVestRow, hfmv, hgvp, vestToBuy, DStr.toDay,
          Option.some.injEq] at hdt ⊢
        subst hdt
        have hrate : rateOf c (next_business_day c.holidays d) = none :=
          rateOf_none_of (nbd_is_business c.holidays d) hstock hfnone
        exact ⟨hrate.symm, fun ρ2 u2 h1 _ => absurd (hrate ▸ h1) (by simp),
          fun _ => trivial⟩
      · rw [hgvp] at heq
        obtain ⟨rfl, rfl, rfl⟩ : f? = some ρ ∧ g? = some (u / ρ)
            ∧ a = DStr.valid (next_business_day c.holidays d) := by
          injection heq with e1 e2
          injection e2 with e2 e3
          injection e3 with e3 e4
          exact ⟨e2, e3, e4⟩
        simp only [processVestRow, hfmv, hgvp, vestToBuy, DStr.toDay,
          Option.some.injEq] at hdt ⊢
        subst hdt
        have hrate : rateOf c (next_business_day c.holidays d) = some ρ :=
          rateOf_some_of (nbd_is_business c.holidays d) hstock hfsome hz
        refine ⟨hrate.symm, ?_, fun hnone => absurd (hrate ▸ hnone) (by simp)⟩
        intro ρ2 u2 h1 h2
        rw [hrate] at h1
        simp only [Option.some.injEq] at h1 h2
        subst h1
        subst h2
        rfl
  · -- FMV known: the row is dated only when the resolver found a rate
    rcases hgvp : get_vest_price c v.date with ⟨u?, f?, g?, a⟩
    rcases hf : f? with _ | ρ
    · subst hf
      simp only [processVestRow, hfmv, hgvp, vestToBuy] at hdt
      cases hdt
    · subst hf
      have hfx2 : (get_vest_price c v.date).2.1 = some ρ := by rw [hgvp]
      obtain ⟨d, u0, hds, hz, hstock, hfsome, heq⟩ := gvp_fx_some hfx2
      rw [hgvp] at heq
      obtain ⟨rfl, rfl, rfl⟩ : u? = some u0 ∧ g? = some (u0 / ρ)
          ∧ a = DStr.valid (next_business_day c.holidays d) := by
        injection heq with e1 e2
        injection e2 with e2 e3
        injection e3 with e3 e4
        exact ⟨e1, e3, e4⟩
      simp only [processVestRow, hfmv, hgvp, vestToBuy, DStr.toDay,
        Option.some.injEq] at hdt ⊢
      subst hdt
      have hrate : rateOf c (next_business_day c.holidays d) = some ρ :=
        rateOf_some_of (nbd_is_business c.holidays d) hstock hfsome hz
      refine ⟨hrate.symm, ?_, fun hnone => absurd (hrate ▸ hnone) (by simp)⟩
      intro ρ2 u2 h1 h2
      rw [hrate] at h1
      simp only [Option.some.injEq] at h1 h2
      subst h1
      subst h2
      rfl

/-- A bucket of pricing-coherent records sharing one key merges into a
record whose GBP price, when present together with the rate and the USD
price, reproduces `usd / rate` up to the rounding of the two weighted
averages — within `1e-6` once the rate is at least 1. -/
theorem merged_coherent (c : VPC) (k : GKey) (bucket : List Rec)
    (hmem : ∀ b ∈ bucket, RecInv c b ∧ gkey b = some k ∧ ∃ q, b.price = some q)
    (hne : bucket ≠ []) (g ρ u : ℚ)
    (hg : (mergeBucket k bucket).priceGBP = some g)
    (hfx : (mergeBucket k bucket).fx = some ρ)
    (hu : (mergeBucket k bucket).price = some u)
    (hρ : 1 ≤ ρ) : |g - u / ρ| ≤ 1 / 1000000 := by
  rcases hrate : rateOf c k.1 with _ | ρ0
  · -- engine rate absent: no member carries GBP, the else branch fired
    have hany : bucket.any (fun r => r.priceGBP.isSome) = false := by
      rw [List.any_eq_false]
      intro x hx
      obtain ⟨hinv, hkb, _⟩ := hmem x hx
      rw [(hinv k.1 (gkey_date hkb)).2.2 hrate]
      simp
    unfold mergeBucket at hfx
    rw [if_neg (by rw [hany]; simp)] at hfx
    cases hfx
  · -- uniform engine rate ρ0 across the bucket
    have hfields : ∀ b ∈ bucket,
        b.fx = some ρ0 ∧ ∃ ub, b.price = some ub ∧ b.priceGBP = some (ub / ρ0) := by
      intro b hb
      obtain ⟨hinv, hkb, qb, hqb⟩ := hmem b hb
      have h1 := hinv k.1 (gkey_date hkb)
      exact ⟨by rw [h1.1, hrate], qb, hqb, h1.2.1 ρ0 qb hrate hqb⟩
    obtain ⟨b0, hb0⟩ := List.exists_mem_of_ne_nil bucket hne
    have hanytrue : bucket.any (fun r => r.priceGBP.isSome) = true := by
      rw [List.any_eq_true]
      obtain ⟨-, ub, -, hgb⟩ := hfields b0 hb0
      exact ⟨b0, hb0, by rw [hgb]; rfl⟩
    unfold mergeBucket at hg hfx hu
    rw [if_pos (by rw [hanytrue])] at hg hfx hu
    have hfxall : ∀ b ∈ bucket, (fun r => r.fx) b = some ρ0 :=
      fun b hb => (hfields b hb).1
    rw [filterMap_all_some hfxall] at hfx
    simp only at hfx
    have hmap_ne : bucket.map (fun _ => ρ0) ≠ [] := by
      simpa using hne
    have hconst : ∀ x ∈ bucket.map (fun _ => ρ0), x = ρ0 := by
      intro x hx
      rcases List.mem_map.mp hx with ⟨b, -, h⟩
      exact h.symm
    rw [modeQ_const hmap_ne hconst] at hfx
    have hfiltereq : bucket.filter (fun r => r.priceGBP.isSome) = bucket :=
      List.filter_eq_self.mpr (fun b hb => by
        obtain ⟨-, ub, -, hgb⟩ := hfields b hb
        rw [hgb]
        rfl)
    rw [hfiltereq] at hg
    have hpairs : bucket.map (fun r => (r.priceGBP.getD 0, r.qty))
        = (bucket.map (fun r => (r.price.getD 0, r.qty))).map (fun p => (p.1 / ρ0, p.2)) := by
      rw [List.map_map]
      refine List.map_congr_left ?_
      intro b hb
      obtain ⟨-, ub, hub, hgb⟩ := hfields b hb
      simp [hub, hgb]
    rw [hpairs, wavg_div] at hg
    simp only [Option.some.injEq] at hg hfx hu
    subst hg
    subst hu
    subst hfx
    set W := wavg (bucket.map (fun r => (r.price.getD 0, r.qty))) with hW
    have h1 : |round6 (W / ρ0) - W / ρ0| ≤ 1 / 2000000 := round6_close _
    have h2 : |W - round6 W| ≤ 1 / 2000000 := by
      rw [abs_sub_comm]
      exact round6_close W
    have hρpos : (0 : ℚ) < ρ0 := by linarith
    have hsplit : round6 (W / ρ0) - round6 W / ρ0
        = (round6 (W / ρ0) - W / ρ0) + (W - round6 W) / ρ0 := by
      field_simp
    rw [hsplit]
    calc |(round6 (W / ρ0) - W / ρ0) + (W - round6 W) / ρ0|
        ≤ |round6 (W / ρ0) - W / ρ0| + |(W - round6 W) / ρ0| := abs_add _ _
      _ = |round6 (W / ρ0) - W / ρ0| + |W - round6 W| / ρ0 := by
          rw [abs_div, abs_of_pos hρpos]
      _ ≤ 1 / 2000000 + (1 / 2000000) / ρ0 := by
          refine add_le_add h1 ?_
          gcongr
      _ ≤ 1 / 2000000 + 1 / 2000000 := by
          refine add_le_add_left ?_ _
          exact div_le_self (by norm_num) hρ
      _ = 1 / 1000000 := by norm_num

/-- C3 (amended): in the final output of `consolidate_transactions`, every
record carrying both a GBP price and an exchange rate — merged Sell records
included — satisfies `|gbp - usd / rate| ≤ 1e-6`, provided the rate is at
least 1 (as USD/GBP rates are).  Pass-through records satisfy the relation
exactly; merged records accumulate the rounding of two 6-decimal roundings,
`5e-7 · (1 + 1/rate)`, which exceeds `1e-6` for rates below 1 (see
`c3_gbp_roundtrip_counterexample`). -/
theorem c3_gbp_roundtrip (c : VPC) (sales : List SaleRow) (vests : List VestRow)
    (out : List Rec)
    (hout : consolidate_transactions c sales vests = Except.ok out)
    (r : Rec) (hr : r ∈ out)
    (g ρ u : ℚ) (hg : r.priceGBP = some g) (hfx : r.fx = some ρ)
    (hu : r.price = some u) (hρ : 1 ≤ ρ) :
    |g - u / ρ| ≤ 1 / 1000000 := by
  have hguard : vests.any (vestAssigns c) = true := by
    by_contra hga
    simp only [consolidate_transactions] at hout
    rw [if_neg hga] at hout
    cases hout
  have hout2 : out = sortByDate (consolidate_similar_prices (1 / 100)
      (vests.map (fun v => vestToBuy (processVestRow c v))
        ++ sales.map (saleToSell c))) := by
    simp only [consolidate_transactions] at hout
    rw [if_pos hguard] at hout
    injection hout with h
    exact h.symm
  rw [hout2, mem_sortByDate] at hr
  have hinv : ∀ x ∈ (vests.map (fun v => vestToBuy (processVestRow c v))
      ++ sales.map (saleToSell c)), RecInv c x := by
    intro x hx
    rcases List.mem_append.mp hx with hx | hx
    · rcases List.mem_map.mp hx with ⟨v, _, rfl⟩
      exact recInv_buy c v
    · rcases List.mem_map.mp hx with ⟨s, _, rfl⟩
      exact recInv_sell c s
  rcases csp_mem hr with ⟨k, hkr, hcase⟩
  rcases hcase with hmem | ⟨bucket, h1, h2, h4⟩
  · -- pass-through record: the relation holds exactly
    have hthis := (hinv r hmem) k.1 (gkey_date hkr)
    rcases hrate : rateOf c k.1 with _ | ρ0
    · rw [hthis.1, hrate] at hfx
      cases hfx
    · rw [hthis.1, hrate] at hfx
      simp only [Option.some.injEq] at hfx
      subst hfx
      have := hthis.2.1 ρ0 u hrate hu
      rw [hg] at this
      simp only [Option.some.injEq] at this
      rw [this]
      simp
  · -- merged record: rounding analysis
    subst h4
    exact merged_coherent c k bucket
      (fun b hb => ⟨hinv b (h2 b hb).1, (h2 b hb).2.1, (h2 b hb).2.2⟩)
      (by intro hemp; rw [hemp] at h1; cases h1) g ρ u hg hfx hu hρ

/-- C3 witness: a sale of 12 USD at rate 3 together with the priced vest
`v3w` (so the run returns a ledger) flows through to the output with GBP
price 4, and the theorem yields `|4 - 12/3| ≤ 1e-6`. -/
theorem c3_gbp_roundtrip_witness : |(4 : ℚ) - 12 / 3| ≤ 1 / 1000000 := by
  have hout : consolidate_transactions c4c [s3w] [v3w]
      = Except.ok [saleToSell c4c s3w, vestToBuy (processVestRow c4c v3w)] := by
    norm_num [consolidate_transactions, vestAssigns, consolidate_similar_prices,
      saleToSell, vestToBuy, processVestRow, get_vest_price, next_business_day,
      fuelBound, nbd_fuel, is_business_day, c4c, s3w, v3w, List.lookup, gkey,
      DStr.toDay, greedy, greedyF, similar, sortByDate, insertByDate,
      List.filterMap, List.dedup, List.pwFilter, List.flatMap, List.any_cons,
      show (("Sell" : String) = "Buy") = False by simp]
    norm_num [greedyF, similar, gkey, insertByDate, List.flatten, List.map_cons,
      List.filter_cons, show (("Sell" : String) = "Buy") = False by simp]
  exact c3_gbp_roundtrip c4c [s3w] [v3w] _ hout (saleToSell c4c s3w)
    (List.mem_cons_self _ _) 4 3 12
    (by norm_num [saleToSell, get_vest_price, next_business_day, fuelBound,
      nbd_fuel, is_business_day, c4c, s3w, List.lookup])
    (by norm_num [saleToSell, get_vest_price, next_business_day, fuelBound,
      nbd_fuel, is_business_day, c4c, s3w, List.lookup])
    (by norm_num [saleToSell, get_vest_price, next_business_day, fuelBound,
      nbd_fuel, is_business_day, c4c, s3w, List.lookup])
    (by norm_num)

/-- C3 counterexample: with the FX rate 1/8 (< 1), merging two sales of
10.0000002 and 10.0000004 USD (one share each) — alongside the priced vest
`v3`, so the run completes — produces USD price 10.000000 and GBP price
80.000002 after the two independent 6-decimal roundings, but
`usd / rate = 80.000000`: the difference is `2e-6 > 1e-6`, so the claim as
stated (no condition on the rate) is false on the final output. -/
theorem c3_gbp_roundtrip_counterexample :
    (consolidate_transactions c3c [s31, s32] [v3]).map
        (fun l => l.map (fun r => (r.price, r.priceGBP, r.fx)))
      = Except.ok [(some 10, some (80000002 / 1000000), some (1 / 8)),
                   (some 2, some 16, some (1 / 8))] ∧
    ¬ |(80000002 / 1000000 : ℚ) - 10 / (1 / 8)| ≤ 1 / 1000000 := by
  constructor
  · norm_num [consolidate_transactions, vestAssigns, consolidate_similar_prices,
      saleToSell, vestToBuy, processVestRow, Except.map,
      get_vest_price, next_business_day, fuelBound, nbd_fuel, is_business_day,
      c3c, s31, s32, v3, List.lookup, gkey, DStr.toDay, greedy, greedyF, similar,
      mergeBucket, wavg, modeQ, maxCount, round6, rhe, round_eq, Int.fract,
      sortByDate, insertByDate, List.filterMap, List.dedup, List.pwFilter,
      List.flatMap, List.count_cons, List.min?, min_def, List.any_cons,
      show (("Sell" : String) = "Buy") = False by simp]
    norm_num [greedyF, similar, gkey, insertByDate, List.flatten, List.map_cons,
      List.filter_cons, mergeBucket, wavg, modeQ, maxCount, round6, rhe,
      round_eq, Int.fract, List.count_cons, List.min?, min_def,
      show (("Sell" : String) = "Buy") = False by simp]
    norm_num [List.filterMap_cons, List.count_cons, List.count_nil, min_def,
      List.foldr, List.foldl]
  · rw [show (80000002 / 1000000 : ℚ) - 10 / (1 / 8) = 2 / 1000000 by norm_num]
    rw [abs_of_pos (by norm_num : (0 : ℚ) < 2 / 1000000)]
    norm_num

end Etrade
